import Mathlib

/-!
Verification of the grid reachability analyzer in
`src/validate/check_hard_expedition.py`.

The script loads a square grid of single-character cell labels
(`P` park, `H` home, `S` supercharger, `R` road, `B` building), scans it
row-major for points of interest, classifies each park by its number of
passable orthogonal neighbors, and runs a breadth-first flood fill from the
first home to decide which parks are reachable.

The embedding below models the grid as `List (List Char)`, coordinates as
`Int × Int` (Python integers may go negative before the bounds check), and
the flood-fill `while` loop as a fuel-indexed recursion whose fuel is chosen
at least as large as the loop measure, so the fuel-exhaustion branch is
never taken (the small-step relation `FFStep` is proved well-founded below,
which is the termination argument for the Python loop).  Cell lookup
`layout[ny][nx]` is modelled by `cellAt`, returning `none` where Python
indexing would raise; on grids satisfying the spec's row-length invariant
(`Square`) every lookup performed under the bounds check succeeds, so the
`none` fallbacks below are never consulted there.
-/

namespace HardExpedition


/-- Coordinates `(x, y)` as used by the script, with Python integers. -/
abbrev Coord := Int × Int

/-- The four orthogonal directions, in the script's order
`[(-1,0), (1,0), (0,-1), (0,1)]`. -/
def dirs : List (Int × Int) := [(-1, 0), (1, 0), (0, -1), (0, 1)]

/-- Membership in the script's passable list `['R', 'P', 'H', 'S']`. -/
def isPassable (c : Char) : Bool := c == 'R' || c == 'P' || c == 'H' || c == 'S'

/-- Grid size `len(layout)`: the number of rows, used as the bound for both
axes by the script. -/
def gridSize (L : List (List Char)) : Nat := L.length

/-- Cell lookup `layout[y][x]`.  Python raises `IndexError` outside the
lists, and wraps negative indices; the script only indexes after checking
`0 <= x` and `0 <= y`, and we return `none` for negative indices so that
the model never silently wraps. -/
def cellAt (L : List (List Char)) (x y : Int) : Option Char :=
  if x < 0 ∨ y < 0 then none
  else (L.get? y.toNat).bind fun row => row.get? x.toNat

/-- The bounds check `0 <= x < grid_size and 0 <= y < grid_size`. -/
def inB (n : Nat) (x y : Int) : Bool :=
  decide (0 ≤ x) && decide (x < (n : Int)) && decide (0 ≤ y) && decide (y < (n : Int))

/-- The membership test `layout[y][x] in ['R', 'P', 'H', 'S']`.  The script
evaluates it only after the bounds check; for square grids the lookup then
always succeeds, and the `none` fallback (Python `IndexError` on a short
row) is treated as impassable. -/
def passLabel (L : List (List Char)) (x y : Int) : Bool :=
  match cellAt L x y with
  | some c => isPassable c
  | none => false

/-- The spec's data-model invariant (section 3): every row has the same
length as the outer list, so the grid is `N × N`. -/
def Square (L : List (List Char)) : Prop := ∀ row ∈ L, row.length = L.length

instance (L : List (List Char)) : Decidable (Square L) :=
  List.decidableBAll _ L

/-- All in-bounds coordinates of an `n × n` grid, as a finite set. -/
def boundsF (n : Nat) : Finset Coord :=
  Finset.Icc (0 : Int) ((n : Int) - 1) ×ˢ Finset.Icc (0 : Int) ((n : Int) - 1)

/-- One round of the flood fill's neighbor loop: from the cell just popped
(and already inserted into `visited`), the neighbors that pass
`0 <= nx < grid_size and 0 <= ny < grid_size and (nx, ny) not in visited
and layout[ny][nx] in ['R', 'P', 'H', 'S']`, in direction order. -/
def expand (L : List (List Char)) (visited : Finset Coord) (x y : Int) : List Coord :=
  dirs.filterMap fun dd =>
    if inB (gridSize L) (x + dd.1) (y + dd.2) = true ∧
        (x + dd.1, y + dd.2) ∉ visited ∧
        passLabel L (x + dd.1) (y + dd.2) = true then
      some (x + dd.1, y + dd.2)
    else none

/-- One step of the flood fill: `x + dx, y + dy` is orthogonally adjacent,
in bounds, and carries a passable label.  This is exactly the guard under
which the script enqueues a neighbor (ignoring the `visited` test, which
only suppresses duplicates). -/
def AdjPass (L : List (List Char)) (c d : Coord) : Prop :=
  (∃ dd ∈ dirs, d = (c.1 + dd.1, c.2 + dd.2)) ∧
    inB (gridSize L) d.1 d.2 = true ∧ passLabel L d.1 d.2 = true

/-- Loop measure for the flood-fill `while`: coordinates that might still
enter `visited` (weighted) plus the frontier length.  Every iteration
strictly decreases it. -/
def ffMeasure (L : List (List Char)) (queue : List Coord) (visited : Finset Coord) : Nat :=
  5 * ((boundsF (gridSize L) ∪ queue.toFinset) \ visited).card + queue.length

/-- The flood-fill `while` loop
(`while queue: x, y = queue.pop(0); ...; queue.append(...)`), indexed by
fuel.  `floodFill` below supplies fuel equal to the initial loop measure,
which the measure lemmas show is never exhausted before the queue empties. -/
def floodLoop (L : List (List Char)) : Nat → List Coord → Finset Coord → Finset Coord
  | 0, _, visited => visited
  | _ + 1, [], visited => visited
  | fuel + 1, c :: rest, visited =>
    if c ∈ visited then floodLoop L fuel rest visited
    else floodLoop L fuel (rest ++ expand L (insert c visited) c.1 c.2) (insert c visited)

/-- Fuel bound: the loop measure of the initial state `([start], ∅)`. -/
def ffFuel (L : List (List Char)) (start : Coord) : Nat :=
  5 * (boundsF (gridSize L) ∪ {start}).card + 1

/-- The flood fill of the script: `visited = set(); queue = [(start_x,
start_y)]; while queue: ...`, returning the final visited set. -/
def floodFill (L : List (List Char)) (start : Coord) : Finset Coord :=
  floodLoop L (ffFuel L start) [start] ∅

/-- The depth-first variant of the spec (section 4.1: breadth-first "or
depth-first; order does not affect the result set").  Modelled from the
spec: identical to `floodLoop` except that the newly discovered neighbors
are pushed at the front of the frontier (LIFO) instead of appended (FIFO). -/
def floodLoopD (L : List (List Char)) : Nat → List Coord → Finset Coord → Finset Coord
  | 0, _, visited => visited
  | _ + 1, [], visited => visited
  | fuel + 1, c :: rest, visited =>
    if c ∈ visited then floodLoopD L fuel rest visited
    else floodLoopD L fuel (expand L (insert c visited) c.1 c.2 ++ rest) (insert c visited)

/-- Depth-first flood fill, sharing the fuel bound of `floodFill`. -/
def floodFillD (L : List (List Char)) (start : Coord) : Finset Coord :=
  floodLoopD L (ffFuel L start) [start] ∅

/-- One state of the flood-fill `while` loop: the frontier `queue` and the
`visited` set. -/
abbrev FFState := List Coord × Finset Coord

/-- One iteration of the flood-fill `while` loop: pop the head; if already
visited, continue; otherwise mark it visited and enqueue the neighbors that
pass the guard. -/
inductive FFStep (L : List (List Char)) : FFState → FFState → Prop
  | skip (c : Coord) (rest : List Coord) (visited : Finset Coord) :
      c ∈ visited → FFStep L (c :: rest, visited) (rest, visited)
  | visit (c : Coord) (rest : List Coord) (visited : Finset Coord) :
      c ∉ visited →
      FFStep L (c :: rest, visited)
        (rest ++ expand L (insert c visited) c.1 c.2, insert c visited)

/-- Inner loop of the POI scan: `for x, cell in enumerate(row)`, collecting
the coordinates whose cell equals `t`, starting at column index `x`. -/
def scanRowFor (t : Char) (y : Int) : Int → List Char → List Coord
  | _, [] => []
  | x, c :: rest =>
    if c = t then (x, y) :: scanRowFor t y (x + 1) rest
    else scanRowFor t y (x + 1) rest

/-- Outer loop of the POI scan: `for y, row in enumerate(layout)`. -/
def scanRowsFor (t : Char) : Int → List (List Char) → List Coord
  | _, [] => []
  | y, row :: rest => scanRowFor t y 0 row ++ scanRowsFor t (y + 1) rest

/-- Row-major scan of the grid for cells labeled `t`.  The script collects
`parks`, `homes` and `superchargers` in a single pass with an
`if`/`elif` chain; since each cell has exactly one label, that pass builds
the same three lists as one scan per label, each in row-major order. -/
def scanFor (L : List (List Char)) (t : Char) : List Coord := scanRowsFor t 0 L

/-- The `parks` list of the script. -/
def parks (L : List (List Char)) : List Coord := scanFor L 'P'

/-- The `homes` list of the script. -/
def homes (L : List (List Char)) : List Coord := scanFor L 'H'

/-- The `superchargers` list of the script. -/
def superchargers (L : List (List Char)) : List Coord := scanFor L 'S'

/-- Row-major (scan) order on coordinates `(x, y)`: earlier row, or same
row and no later column. -/
def rowMajorLE (p q : Coord) : Prop := p.2 < q.2 ∨ (p.2 = q.2 ∧ p.1 ≤ q.1)

/-- The neighbor list built for a park: for each of the 4 directions, the
cell's label if in bounds, else `'B'` (`neighbors.append('B')  # Out of
bounds = building`).  For square grids the in-bounds lookup always
succeeds; the `'?'` fallback stands for the `IndexError` Python would raise
on a short row and is never consulted under the `Square` hypothesis. -/
def neighborLabels (L : List (List Char)) (x y : Int) : List Char :=
  dirs.map fun dd =>
    if inB (gridSize L) (x + dd.1) (y + dd.2) = true then
      (cellAt L (x + dd.1) (y + dd.2)).getD '?'
    else 'B'

/-- The count `sum(1 for n in neighbors if n in ['R', 'P', 'H', 'S'])`. -/
def passableCount (L : List (List Char)) (x y : Int) : Nat :=
  (neighborLabels L x y).countP isPassable

/-- The three printed classifications of a park. -/
inductive ParkStatus where
  | unreachableIsolated : ParkStatus
  | deadEnd : ParkStatus
  | accessible : ParkStatus
deriving DecidableEq

/-- The classification branch of the script:
`if passable_neighbors == 0: UNREACHABLE; elif passable_neighbors < 2:
dead end; else: Accessible`. -/
def classify (L : List (List Char)) (x y : Int) : ParkStatus :=
  if passableCount L x y = 0 then ParkStatus.unreachableIsolated
  else if passableCount L x y < 2 then ParkStatus.deadEnd
  else ParkStatus.accessible

/-- The data the connectivity analysis prints when a start exists: the
start coordinate, each park with its reachability flag, the reachable and
total park counts, and the overall verdict. -/
structure ReachReport where
  start : Coord
  parkResults : List (Coord × Bool)
  reachableParks : Nat
  totalParks : Nat
  allReachable : Bool
deriving DecidableEq

/-- Outcome of the connectivity analysis: either a report, or the
`"No home locations found - can't determine starting point"` branch. -/
inductive AnalysisOutcome where
  | report : ReachReport → AnalysisOutcome
  | noStartPoint : AnalysisOutcome
deriving DecidableEq

/-- The connectivity analysis of the script: if `homes` is nonempty, flood
fill from `homes[0]`, count the parks in the visited set, and compare with
the total; otherwise take the no-start-point branch. -/
def connectivityAnalysis (L : List (List Char)) : AnalysisOutcome :=
  match homes L with
  | [] => AnalysisOutcome.noStartPoint
  | s :: _ =>
    let visited := floodFill L s
    let reachable := (parks L).countP fun p => decide (p ∈ visited)
    AnalysisOutcome.report
      { start := s
        parkResults := (parks L).map fun p => (p, decide (p ∈ visited))
        reachableParks := reachable
        totalParks := (parks L).length
        allReachable := reachable == (parks L).length }

/-- A coordinate that is in bounds and carries a passable label: the cells
the flood fill may traverse. -/
def PassIB (L : List (List Char)) (c : Coord) : Prop :=
  inB (gridSize L) c.1 c.2 = true ∧ passLabel L c.1 c.2 = true

instance (L : List (List Char)) (c : Coord) : Decidable (PassIB L c) :=
  instDecidableAnd

/-- A chain step between passable cells, as the spec reads reachability:
both endpoints in bounds and passable, one orthogonal move apart. -/
def ConnStep (L : List (List Char)) (c d : Coord) : Prop :=
  (∃ dd ∈ dirs, d = (c.1 + dd.1, c.2 + dd.2)) ∧ PassIB L c ∧ PassIB L d

/-- The fixed cell-label enumeration of the spec (section 3). -/
def legalLabels : List Char := ['P', 'H', 'S', 'R', 'B']

/-- Malformed input as the spec's error taxonomy defines it (section 7):
empty grid, non-square grid, or a cell label outside the enumeration. -/
def InvalidGrid (L : List (List Char)) : Prop :=
  L = [] ∨ ¬ Square L ∨ ∃ row ∈ L, ∃ c ∈ row, c ∉ legalLabels

/-- Example layout used to instantiate the theorems below: a home, a park
reachable only through the bottom road corridor, and buildings. -/
def g1 : List (List Char) := [['H', 'R', 'B'], ['R', 'B', 'P'], ['R', 'R', 'R']]

/-- Example layout with no home cell. -/
def g6 : List (List Char) := [['R', 'P'], ['B', 'R']]

/-- Example malformed layout: square, but with the unknown label `'X'`. -/
def g7 : List (List Char) := [['H', 'X'], ['R', 'P']]

theorem mem_boundsF {n : Nat} {c : Coord} : c ∈ boundsF n ↔ inB n c.1 c.2 = true := by
  obtain ⟨x, y⟩ := c
  simp only [boundsF, Finset.mem_product, Finset.mem_Icc, inB, Bool.and_eq_true,
    decide_eq_true_eq]
  omega

theorem mem_expand {L : List (List Char)} {visited : Finset Coord} {x y : Int}
    {d : Coord} :
    d ∈ expand L visited x y ↔ AdjPass L (x, y) d ∧ d ∉ visited := by
  simp only [expand, List.mem_filterMap, AdjPass]
  constructor
  · rintro ⟨dd, hdd, hif⟩
    split at hif
    · rename_i h
      cases hif
      exact ⟨⟨⟨dd, hdd, rfl⟩, h.1, h.2.2⟩, h.2.1⟩
    · cases hif
  · rintro ⟨⟨⟨dd, hdd, rfl⟩, hb, hp⟩, hv⟩
    exact ⟨dd, hdd, by simp [hb, hp, hv]⟩

theorem expand_inB {L : List (List Char)} {visited : Finset Coord} {x y : Int}
    {d : Coord} (h : d ∈ expand L visited x y) : inB (gridSize L) d.1 d.2 = true :=
  (mem_expand.mp h).1.2.1

theorem expand_length_le (L : List (List Char)) (visited : Finset Coord) (x y : Int) :
    (expand L visited x y).length ≤ 4 :=
  Nat.le_trans (List.length_filterMap_le _ _) (by simp [dirs])

theorem ffMeasure_skip (L : List (List Char)) (c : Coord) (rest : List Coord)
    (visited : Finset Coord) :
    ffMeasure L rest visited < ffMeasure L (c :: rest) visited := by
  have hsub : (boundsF (gridSize L) ∪ rest.toFinset) \ visited ⊆
      (boundsF (gridSize L) ∪ (c :: rest).toFinset) \ visited := by
    apply Finset.sdiff_subset_sdiff _ (Finset.Subset.refl _)
    apply Finset.union_subset_union (Finset.Subset.refl _)
    simp only [List.toFinset_cons]
    exact Finset.subset_insert _ _
  have := Finset.card_le_card hsub
  simp only [ffMeasure, List.length_cons]
  omega

theorem ffMeasure_visit (L : List (List Char)) (c : Coord) (rest : List Coord)
    (visited : Finset Coord) (q' : List Coord) (hc : c ∉ visited)
    (hq' : q'.toFinset ⊆ rest.toFinset ∪ boundsF (gridSize L))
    (hlen : q'.length ≤ rest.length + 4) :
    ffMeasure L q' (insert c visited) < ffMeasure L (c :: rest) visited := by
  set A := (boundsF (gridSize L) ∪ (c :: rest).toFinset) \ visited with hA
  have hcA : c ∈ A := by
    simp [hA, Finset.mem_sdiff, hc]
  have hsub : (boundsF (gridSize L) ∪ q'.toFinset) \ insert c visited ⊆ A.erase c := by
    intro b hb
    simp only [Finset.mem_sdiff, Finset.mem_union, Finset.mem_insert, not_or] at hb
    obtain ⟨hb1, hb2, hb3⟩ := hb
    rw [Finset.mem_erase]
    refine ⟨hb2, ?_⟩
    simp only [hA, Finset.mem_sdiff, Finset.mem_union]
    refine ⟨?_, hb3⟩
    rcases hb1 with hb1 | hb1
    · exact Or.inl hb1
    · rcases Finset.mem_union.mp (hq' hb1) with h | h
      · exact Or.inr (by simp only [List.toFinset_cons, Finset.mem_insert]; exact Or.inr h)
      · exact Or.inl h
  have h1 : ((boundsF (gridSize L) ∪ q'.toFinset) \ insert c visited).card ≤
      A.card - 1 := by
    have := Finset.card_le_card hsub
    rwa [Finset.card_erase_of_mem hcA] at this
  have h2 : 1 ≤ A.card := Finset.card_pos.mpr ⟨c, hcA⟩
  simp only [ffMeasure, List.length_cons, ← hA]
  omega

theorem ffMeasure_init (L : List (List Char)) (start : Coord) :
    ffMeasure L [start] ∅ = ffFuel L start := by
  simp [ffMeasure, ffFuel]

theorem floodLoop_mono (L : List (List Char)) :
    ∀ (fuel : Nat) (queue : List Coord) (visited : Finset Coord),
      visited ⊆ floodLoop L fuel queue visited := by
  intro fuel
  induction fuel with
  | zero => intro queue visited; simp [floodLoop]
  | succ n ih =>
    intro queue visited
    match queue with
    | [] => simp [floodLoop]
    | c :: rest =>
      by_cases hc : c ∈ visited
      · simpa [floodLoop, hc] using ih rest visited
      · simp only [floodLoop, if_neg hc]
        exact (Finset.subset_insert c visited).trans (ih _ _)

theorem floodLoop_sound (L : List (List Char)) (s : Coord) :
    ∀ (fuel : Nat) (queue : List Coord) (visited : Finset Coord),
      (∀ c ∈ queue, Relation.ReflTransGen (AdjPass L) s c) →
      (∀ c ∈ visited, Relation.ReflTransGen (AdjPass L) s c) →
      ∀ c ∈ floodLoop L fuel queue visited, Relation.ReflTransGen (AdjPass L) s c := by
  intro fuel
  induction fuel with
  | zero => intro queue visited _ hv; simpa [floodLoop] using hv
  | succ n ih =>
    intro queue visited hq hv
    match queue with
    | [] => simpa [floodLoop] using hv
    | c :: rest =>
      have hc' : Relation.ReflTransGen (AdjPass L) s c := hq c (List.mem_cons_self c rest)
      by_cases hc : c ∈ visited
      · simp only [floodLoop, if_pos hc]
        exact ih rest visited (fun d hd => hq d (List.mem_cons_of_mem c hd)) hv
      · simp only [floodLoop, if_neg hc]
        apply ih
        · intro d hd
          rcases List.mem_append.mp hd with hd | hd
          · exact hq d (List.mem_cons_of_mem c hd)
          · exact hc'.tail (mem_expand.mp hd).1
        · intro d hd
          rcases Finset.mem_insert.mp hd with rfl | hd
          · exact hc'
          · exact hv d hd

theorem floodLoop_queueMem (L : List (List Char)) :
    ∀ (fuel : Nat) (queue : List Coord) (visited : Finset Coord),
      ffMeasure L queue visited ≤ fuel →
      ∀ c ∈ queue, c ∈ floodLoop L fuel queue visited := by
  intro fuel
  induction fuel with
  | zero =>
    intro queue visited hμ c hcq
    exfalso
    have : 1 ≤ queue.length := List.length_pos.mpr (List.ne_nil_of_mem hcq)
    simp only [ffMeasure] at hμ
    omega
  | succ n ih =>
    intro queue visited hμ c hcq
    match queue with
    | [] => cases hcq
    | c0 :: rest =>
      by_cases hc0 : c0 ∈ visited
      · simp only [floodLoop, if_pos hc0]
        rcases List.mem_cons.mp hcq with rfl | hcq
        · exact floodLoop_mono L n rest visited hc0
        · exact ih rest visited
            (by have := ffMeasure_skip L c0 rest visited; omega) c hcq
      · simp only [floodLoop, if_neg hc0]
        have hμ' : ffMeasure L (rest ++ expand L (insert c0 visited) c0.1 c0.2)
            (insert c0 visited) ≤ n := by
          have := ffMeasure_visit L c0 rest visited
            (rest ++ expand L (insert c0 visited) c0.1 c0.2) hc0
            (by
              intro b hb
              rcases List.mem_toFinset.mp hb |> List.mem_append.mp with hb | hb
              · exact Finset.mem_union_left _ (List.mem_toFinset.mpr hb)
              · exact Finset.mem_union_right _ (mem_boundsF.mpr (expand_inB hb)))
            (by
              have := expand_length_le L (insert c0 visited) c0.1 c0.2
              simp only [List.length_append]
              omega)
          omega
        rcases List.mem_cons.mp hcq with rfl | hcq
        · exact floodLoop_mono L n _ _ (Finset.mem_insert_self c _)
        · exact ih _ _ hμ' c (List.mem_append_left _ hcq)

theorem floodLoop_closed (L : List (List Char)) :
    ∀ (fuel : Nat) (queue : List Coord) (visited : Finset Coord),
      ffMeasure L queue visited ≤ fuel →
      (∀ a ∈ visited, ∀ d, AdjPass L a d → d ∈ visited ∨ d ∈ queue) →
      ∀ a ∈ floodLoop L fuel queue visited, ∀ d, AdjPass L a d →
        d ∈ floodLoop L fuel queue visited := by
  intro fuel
  induction fuel with
  | zero =>
    intro queue visited hμ hinv a ha d had
    have hq : queue = [] := by
      cases queue with
      | nil => rfl
      | cons c rest => simp only [ffMeasure, List.length_cons] at hμ; omega
    subst hq
    simp only [floodLoop] at ha ⊢
    rcases hinv a ha d had with h | h
    · exact h
    · cases h
  | succ n ih =>
    intro queue visited hμ hinv a ha d had
    match queue with
    | [] =>
      simp only [floodLoop] at ha ⊢
      rcases hinv a ha d had with h | h
      · exact h
      · cases h
    | c0 :: rest =>
      by_cases hc0 : c0 ∈ visited
      · simp only [floodLoop, if_pos hc0] at ha ⊢
        refine ih rest visited (by have := ffMeasure_skip L c0 rest visited; omega)
          ?_ a ha d had
        intro b hb e hbe
        rcases hinv b hb e hbe with h | h
        · exact Or.inl h
        · rcases List.mem_cons.mp h with rfl | h
          · exact Or.inl hc0
          · exact Or.inr h
      · simp only [floodLoop, if_neg hc0] at ha ⊢
        have hμ' : ffMeasure L (rest ++ expand L (insert c0 visited) c0.1 c0.2)
            (insert c0 visited) ≤ n := by
          have := ffMeasure_visit L c0 rest visited
            (rest ++ expand L (insert c0 visited) c0.1 c0.2) hc0
            (by
              intro b hb
              rcases List.mem_toFinset.mp hb |> List.mem_append.mp with hb | hb
              · exact Finset.mem_union_left _ (List.mem_toFinset.mpr hb)
              · exact Finset.mem_union_right _ (mem_boundsF.mpr (expand_inB hb)))
            (by
              have := expand_length_le L (insert c0 visited) c0.1 c0.2
              simp only [List.length_append]
              omega)
          omega
        refine ih _ _ hμ' ?_ a ha d had
        intro b hb e hbe
        rcases Finset.mem_insert.mp hb with rfl | hb
        · by_cases he : e ∈ insert b visited
          · exact Or.inl he
          · refine Or.inr (List.mem_append_right _ ?_)
            apply mem_expand.mpr
            refine ⟨?_, he⟩
            obtain ⟨bx, bby⟩ := b
            exact hbe
        · rcases hinv b hb e hbe with h | h
          · exact Or.inl (Finset.mem_insert_of_mem h)
          · rcases List.mem_cons.mp h with rfl | h
            · exact Or.inl (Finset.mem_insert_self e _)
            · exact Or.inr (List.mem_append_left _ h)

/-- Correctness of the flood fill: the final visited set is exactly the set
of coordinates reachable from `start` through the enqueue guard
(in-bounds, passable-label, orthogonal steps). -/
theorem floodFill_spec (L : List (List Char)) (s : Coord) (c : Coord) :
    c ∈ floodFill L s ↔ Relation.ReflTransGen (AdjPass L) s c := by
  constructor
  · intro hc
    refine floodLoop_sound L s (ffFuel L s) [s] ∅ ?_ ?_ c hc
    · intro d hd
      rcases List.mem_cons.mp hd with rfl | hd
      · exact Relation.ReflTransGen.refl
      · cases hd
    · intro d hd; cases hd
  · intro hr
    induction hr with
    | refl =>
      exact floodLoop_queueMem L (ffFuel L s) [s] ∅
        (le_of_eq (ffMeasure_init L s)) s (List.mem_cons_self s [])
    | tail hab hbc ih =>
      exact floodLoop_closed L (ffFuel L s) [s] ∅
        (le_of_eq (ffMeasure_init L s)) (fun a ha => by cases ha) _ ih _ hbc

theorem floodLoopD_mono (L : List (List Char)) :
    ∀ (fuel : Nat) (queue : List Coord) (visited : Finset Coord),
      visited ⊆ floodLoopD L fuel queue visited := by
  intro fuel
  induction fuel with
  | zero => intro queue visited; simp [floodLoopD]
  | succ n ih =>
    intro queue visited
    match queue with
    | [] => simp [floodLoopD]
    | c :: rest =>
      by_cases hc : c ∈ visited
      · simpa [floodLoopD, hc] using ih rest visited
      · simp only [floodLoopD, if_neg hc]
        exact (Finset.subset_insert c visited).trans (ih _ _)

theorem floodLoopD_sound (L : List (List Char)) (s : Coord) :
    ∀ (fuel : Nat) (queue : List Coord) (visited : Finset Coord),
      (∀ c ∈ queue, Relation.ReflTransGen (AdjPass L) s c) →
      (∀ c ∈ visited, Relation.ReflTransGen (AdjPass L) s c) →
      ∀ c ∈ floodLoopD L fuel queue visited, Relation.ReflTransGen (AdjPass L) s c := by
  intro fuel
  induction fuel with
  | zero => intro queue visited _ hv; simpa [floodLoopD] using hv
  | succ n ih =>
    intro queue visited hq hv
    match queue with
    | [] => simpa [floodLoopD] using hv
    | c :: rest =>
      have hc' : Relation.ReflTransGen (AdjPass L) s c := hq c (List.mem_cons_self c rest)
      by_cases hc : c ∈ visited
      · simp only [floodLoopD, if_pos hc]
        exact ih rest visited (fun d hd => hq d (List.mem_cons_of_mem c hd)) hv
      · simp only [floodLoopD, if_neg hc]
        apply ih
        · intro d hd
          rcases List.mem_append.mp hd with hd | hd
          · exact hc'.tail (mem_expand.mp hd).1
          · exact hq d (List.mem_cons_of_mem c hd)
        · intro d hd
          rcases Finset.mem_insert.mp hd with rfl | hd
          · exact hc'
          · exact hv d hd

theorem floodLoopD_queueMem (L : List (List Char)) :
    ∀ (fuel : Nat) (queue : List Coord) (visited : Finset Coord),
      ffMeasure L queue visited ≤ fuel →
      ∀ c ∈ queue, c ∈ floodLoopD L fuel queue visited := by
  intro fuel
  induction fuel with
  | zero =>
    intro queue visited hμ c hcq
    exfalso
    have : 1 ≤ queue.length := List.length_pos.mpr (List.ne_nil_of_mem hcq)
    simp only [ffMeasure] at hμ
    omega
  | succ n ih =>
    intro queue visited hμ c hcq
    match queue with
    | [] => cases hcq
    | c0 :: rest =>
      by_cases hc0 : c0 ∈ visited
      · simp only [floodLoopD, if_pos hc0]
        rcases List.mem_cons.mp hcq with rfl | hcq
        · exact floodLoopD_mono L n rest visited hc0
        · exact ih rest visited
            (by have := ffMeasure_skip L c0 rest visited; omega) c hcq
      · simp only [floodLoopD, if_neg hc0]
        have hμ' : ffMeasure L (expand L (insert c0 visited) c0.1 c0.2 ++ rest)
            (insert c0 visited) ≤ n := by
          have := ffMeasure_visit L c0 rest visited
            (expand L (insert c0 visited) c0.1 c0.2 ++ rest) hc0
            (by
              intro b hb
              rcases List.mem_toFinset.mp hb |> List.mem_append.mp with hb | hb
              · exact Finset.mem_union_right _ (mem_boundsF.mpr (expand_inB hb))
              · exact Finset.mem_union_left _ (List.mem_toFinset.mpr hb))
            (by
              have := expand_length_le L (insert c0 visited) c0.1 c0.2
              simp only [List.length_append]
              omega)
          omega
        rcases List.mem_cons.mp hcq with rfl | hcq
        · exact floodLoopD_mono L n _ _ (Finset.mem_insert_self c _)
        · exact ih _ _ hμ' c (List.mem_append_right _ hcq)

theorem floodLoopD_closed (L : List (List Char)) :
    ∀ (fuel : Nat) (queue : List Coord) (visited : Finset Coord),
      ffMeasure L queue visited ≤ fuel →
      (∀ a ∈ visited, ∀ d, AdjPass L a d → d ∈ visited ∨ d ∈ queue) →
      ∀ a ∈ floodLoopD L fuel queue visited, ∀ d, AdjPass L a d →
        d ∈ floodLoopD L fuel queue visited := by
  intro fuel
  induction fuel with
  | zero =>
    intro queue visited hμ hinv a ha d had
    have hq : queue = [] := by
      cases queue with
      | nil => rfl
      | cons c rest => simp only [ffMeasure, List.length_cons] at hμ; omega
    subst hq
    simp only [floodLoopD] at ha ⊢
    rcases hinv a ha d had with h | h
    · exact h
    · cases h
  | succ n ih =>
    intro queue visited hμ hinv a ha d had
    match queue with
    | [] =>
      simp only [floodLoopD] at ha ⊢
      rcases hinv a ha d had with h | h
      · exact h
      · cases h
    | c0 :: rest =>
      by_cases hc0 : c0 ∈ visited
      · simp only [floodLoopD, if_pos hc0] at ha ⊢
        refine ih rest visited (by have := ffMeasure_skip L c0 rest visited; omega)
          ?_ a ha d had
        intro b hb e hbe
        rcases hinv b hb e hbe with h | h
        · exact Or.inl h
        · rcases List.mem_cons.mp h with rfl | h
          · exact Or.inl hc0
          · exact Or.inr h
      · simp only [floodLoopD, if_neg hc0] at ha ⊢
        have hμ' : ffMeasure L (expand L (insert c0 visited) c0.1 c0.2 ++ rest)
            (insert c0 visited) ≤ n := by
          have := ffMeasure_visit L c0 rest visited
            (expand L (insert c0 visited) c0.1 c0.2 ++ rest) hc0
            (by
              intro b hb
              rcases List.mem_toFinset.mp hb |> List.mem_append.mp with hb | hb
              · exact Finset.mem_union_right _ (mem_boundsF.mpr (expand_inB hb))
              · exact Finset.mem_union_left _ (List.mem_toFinset.mpr hb))
            (by
              have := expand_length_le L (insert c0 visited) c0.1 c0.2
              simp only [List.length_append]
              omega)
          omega
        refine ih _ _ hμ' ?_ a ha d had
        intro b hb e hbe
        rcases Finset.mem_insert.mp hb with rfl | hb
        · by_cases he : e ∈ insert b visited
          · exact Or.inl he
          · refine Or.inr (List.mem_append_left _ ?_)
            apply mem_expand.mpr
            refine ⟨?_, he⟩
            obtain ⟨bx, bby⟩ := b
            exact hbe
        · rcases hinv b hb e hbe with h | h
          · exact Or.inl (Finset.mem_insert_of_mem h)
          · rcases List.mem_cons.mp h with rfl | h
            · exact Or.inl (Finset.mem_insert_self e _)
            · exact Or.inr (List.mem_append_right _ h)

/-- The depth-first flood fill computes the same reachability closure. -/
theorem floodFillD_spec (L : List (List Char)) (s : Coord) (c : Coord) :
    c ∈ floodFillD L s ↔ Relation.ReflTransGen (AdjPass L) s c := by
  constructor
  · intro hc
    refine floodLoopD_sound L s (ffFuel L s) [s] ∅ ?_ ?_ c hc
    · intro d hd
      rcases List.mem_cons.mp hd with rfl | hd
      · exact Relation.ReflTransGen.refl
      · cases hd
    · intro d hd; cases hd
  · intro hr
    induction hr with
    | refl =>
      exact floodLoopD_queueMem L (ffFuel L s) [s] ∅
        (le_of_eq (ffMeasure_init L s)) s (List.mem_cons_self s [])
    | tail hab hbc ih =>
      exact floodLoopD_closed L (ffFuel L s) [s] ∅
        (le_of_eq (ffMeasure_init L s)) (fun a ha => by cases ha) _ ih _ hbc

theorem ffStep_measure_lt (L : List (List Char)) {s t : FFState}
    (h : FFStep L s t) : ffMeasure L t.1 t.2 < ffMeasure L s.1 s.2 := by
  cases h with
  | skip c rest visited hc => exact ffMeasure_skip L c rest visited
  | visit c rest visited hc =>
    refine ffMeasure_visit L c rest visited _ hc ?_ ?_
    · intro b hb
      rcases List.mem_toFinset.mp hb |> List.mem_append.mp with hb | hb
      · exact Finset.mem_union_left _ (List.mem_toFinset.mpr hb)
      · exact Finset.mem_union_right _ (mem_boundsF.mpr (expand_inB hb))
    · have := expand_length_le L (insert c visited) c.1 c.2
      simp only [List.length_append]
      omega

/-- The loop relation admits no infinite run: every chain of iterations is
finite. -/
theorem ffStep_wf (L : List (List Char)) :
    WellFounded (fun t s : FFState => FFStep L s t) := by
  apply Subrelation.wf _ (InvImage.wf (fun st : FFState => ffMeasure L st.1 st.2)
    Nat.lt_wfRel.wf)
  intro t s h
  exact ffStep_measure_lt L h

/-- Along any run of the loop from `([start], ∅)`, every coordinate in the
frontier or in the visited set is reachable from `start`. -/
theorem ffSteps_reachable (L : List (List Char)) (s : Coord) :
    ∀ st : FFState, Relation.ReflTransGen (FFStep L) ([s], ∅) st →
      (∀ c ∈ st.1, Relation.ReflTransGen (AdjPass L) s c) ∧
      (∀ c ∈ st.2, Relation.ReflTransGen (AdjPass L) s c) := by
  intro st hst
  induction hst with
  | refl =>
    constructor
    · intro c hc
      rcases List.mem_cons.mp hc with rfl | hc
      · exact Relation.ReflTransGen.refl
      · cases hc
    · intro c hc; cases hc
  | tail hab hbc ih =>
    rename_i b c
    obtain ⟨ihq, ihv⟩ := ih
    cases hbc with
    | skip c0 rest visited hc0 =>
      exact ⟨fun d hd => ihq d (List.mem_cons_of_mem c0 hd), ihv⟩
    | visit c0 rest visited hc0 =>
      have hc0' : Relation.ReflTransGen (AdjPass L) s c0 :=
        ihq c0 (List.mem_cons_self c0 rest)
      constructor
      · intro d hd
        rcases List.mem_append.mp hd with hd | hd
        · exact ihq d (List.mem_cons_of_mem c0 hd)
        · exact hc0'.tail (mem_expand.mp hd).1
      · intro d hd
        rcases Finset.mem_insert.mp hd with rfl | hd
        · exact hc0'
        · exact ihv d hd

theorem mem_scanRowFor {t : Char} {y : Int} :
    ∀ (row : List Char) (x : Int) (p : Coord),
      p ∈ scanRowFor t y x row ↔
        ∃ i : Nat, row.get? i = some t ∧ p = (x + (i : Int), y) := by
  intro row
  induction row with
  | nil => intro x p; simp [scanRowFor]
  | cons c rest ih =>
    intro x p
    constructor
    · intro hp
      rw [scanRowFor] at hp
      split at hp
      · rename_i hc
        rcases List.mem_cons.mp hp with rfl | hp
        · exact ⟨0, by rw [List.get?_cons_zero, hc], by simp⟩
        · obtain ⟨i, hi, rfl⟩ := (ih (x + 1) _).mp hp
          refine ⟨i + 1, by rwa [List.get?_cons_succ], ?_⟩
          rw [Prod.mk.injEq]
          constructor
          · push_cast; ring
          · rfl
      · obtain ⟨i, hi, rfl⟩ := (ih (x + 1) _).mp hp
        refine ⟨i + 1, by rwa [List.get?_cons_succ], ?_⟩
        rw [Prod.mk.injEq]
        constructor
        · push_cast; ring
        · rfl
    · rintro ⟨i, hi, rfl⟩
      rw [scanRowFor]
      match i with
      | 0 =>
        rw [List.get?_cons_zero] at hi
        cases hi
        rw [if_pos rfl]
        exact List.mem_cons.mpr (Or.inl (by rw [Prod.mk.injEq]; exact ⟨by push_cast; ring, rfl⟩))
      | i + 1 =>
        rw [List.get?_cons_succ] at hi
        have hmem : ((x + 1) + (i : Int), y) ∈ scanRowFor t y (x + 1) rest :=
          (ih (x + 1) _).mpr ⟨i, hi, rfl⟩
        have hcoord : (x + ((i + 1 : Nat) : Int), y) = ((x + 1) + (i : Int), y) := by
          rw [Prod.mk.injEq]; exact ⟨by push_cast; ring, rfl⟩
        rw [hcoord]
        split
        · exact List.mem_cons.mpr (Or.inr hmem)
        · exact hmem

theorem mem_scanRowsFor {t : Char} :
    ∀ (rows : List (List Char)) (y : Int) (p : Coord),
      p ∈ scanRowsFor t y rows ↔
        ∃ j : Nat, ∃ row, rows.get? j = some row ∧
          ∃ i : Nat, row.get? i = some t ∧ p = ((i : Int), y + (j : Int)) := by
  intro rows
  induction rows with
  | nil => intro y p; simp [scanRowsFor]
  | cons row rest ih =>
    intro y p
    rw [scanRowsFor, List.mem_append, mem_scanRowFor, ih (y + 1)]
    constructor
    · rintro (⟨i, hi, rfl⟩ | ⟨j, row', hrow', i, hi, rfl⟩)
      · refine ⟨0, row, List.get?_cons_zero, i, hi, ?_⟩
        rw [Prod.mk.injEq]
        exact ⟨by ring, by push_cast; ring⟩
      · refine ⟨j + 1, row', by rwa [List.get?_cons_succ], i, hi, ?_⟩
        rw [Prod.mk.injEq]
        exact ⟨rfl, by push_cast; ring⟩
    · rintro ⟨j, row', hrow', i, hi, rfl⟩
      match j with
      | 0 =>
        rw [List.get?_cons_zero] at hrow'
        cases hrow'
        refine Or.inl ⟨i, hi, ?_⟩
        rw [Prod.mk.injEq]
        exact ⟨by ring, by push_cast; ring⟩
      | j + 1 =>
        rw [List.get?_cons_succ] at hrow'
        refine Or.inr ⟨j, row', hrow', i, hi, ?_⟩
        rw [Prod.mk.injEq]
        exact ⟨rfl, by push_cast; ring⟩

/-- A coordinate is produced by the row-major scan for `t` exactly when the
grid holds `t` there. -/
theorem mem_scanFor {L : List (List Char)} {t : Char} {p : Coord} :
    p ∈ scanFor L t ↔ cellAt L p.1 p.2 = some t := by
  obtain ⟨x, y⟩ := p
  rw [scanFor, mem_scanRowsFor]
  constructor
  · rintro ⟨j, row, hrow, i, hi, hp⟩
    rw [Prod.mk.injEq] at hp
    obtain ⟨hp1, hp2⟩ := hp
    simp only [cellAt]
    rw [if_neg (by omega)]
    rw [show y.toNat = j by omega, hrow, Option.some_bind]
    rw [show x.toNat = i by omega]
    exact hi
  · intro h
    simp only [cellAt] at h
    by_cases hneg : x < 0 ∨ y < 0
    · rw [if_pos hneg] at h; cases h
    · rw [if_neg hneg] at h
      obtain ⟨row, hrow, hcell⟩ := Option.bind_eq_some.mp h
      refine ⟨y.toNat, row, hrow, x.toNat, hcell, ?_⟩
      rw [Prod.mk.injEq]
      constructor <;> omega

theorem scanRowFor_x_le {t : Char} {y : Int} :
    ∀ (row : List Char) (x : Int) (p : Coord),
      p ∈ scanRowFor t y x row → p.2 = y ∧ x ≤ p.1 := by
  intro row x p hp
  obtain ⟨i, _, rfl⟩ := (mem_scanRowFor row x p).mp hp
  constructor
  · rfl
  · simp

theorem scanRowsFor_y_le {t : Char} :
    ∀ (rows : List (List Char)) (y : Int) (p : Coord),
      p ∈ scanRowsFor t y rows → y ≤ p.2 := by
  intro rows y p hp
  obtain ⟨j, row, _, i, _, rfl⟩ := (mem_scanRowsFor rows y p).mp hp
  simp

theorem scanRowFor_head_min {t : Char} {y : Int} :
    ∀ (row : List Char) (x : Int) (h : Coord),
      (scanRowFor t y x row).head? = some h →
      h.2 = y ∧ ∀ p ∈ scanRowFor t y x row, h.1 ≤ p.1 := by
  intro row
  induction row with
  | nil => intro x h hh; simp [scanRowFor] at hh
  | cons c rest ih =>
    intro x h hh
    by_cases hc : c = t
    · rw [scanRowFor, if_pos hc] at hh
      simp only [List.head?] at hh
      cases hh
      refine ⟨rfl, ?_⟩
      intro p hp
      rw [scanRowFor, if_pos hc] at hp
      rcases List.mem_cons.mp hp with rfl | hp
      · exact le_refl _
      · have := (scanRowFor_x_le rest (x + 1) p hp).2
        omega
    · rw [scanRowFor, if_neg hc] at hh
      obtain ⟨h2, hmin⟩ := ih (x + 1) h hh
      refine ⟨h2, ?_⟩
      intro p hp
      rw [scanRowFor, if_neg hc] at hp
      exact hmin p hp

theorem scanRowsFor_head_min {t : Char} :
    ∀ (rows : List (List Char)) (y : Int) (h : Coord),
      (scanRowsFor t y rows).head? = some h →
      ∀ p ∈ scanRowsFor t y rows, rowMajorLE h p := by
  intro rows
  induction rows with
  | nil => intro y h hh; simp [scanRowsFor] at hh
  | cons row rest ih =>
    intro y h hh p hp
    rw [scanRowsFor] at hh hp
    match hinner : scanRowFor t y 0 row with
    | [] =>
      rw [hinner, List.nil_append] at hh hp
      exact ih (y + 1) h hh p hp
    | q :: qs =>
      rw [hinner] at hh hp
      have hqh : q = h := by simpa using hh
      subst hqh
      have hq := scanRowFor_head_min row 0 q (by rw [hinner]; rfl)
      rcases List.mem_append.mp hp with hp | hp
      · have hpy := (scanRowFor_x_le row 0 p (by rw [hinner]; exact hp)).1
        have hqx := hq.2 p (by rw [hinner]; exact hp)
        exact Or.inr ⟨by rw [hq.1, hpy], hqx⟩
      · have := scanRowsFor_y_le rest (y + 1) p hp
        exact Or.inl (by rw [hq.1]; omega)

/-- Head of the homes list, when it exists, is the row-major-first Home. -/
theorem homes_head_min {L : List (List Char)} {h : Coord}
    (hh : (homes L).head? = some h) :
    cellAt L h.1 h.2 = some 'H' ∧ ∀ p, cellAt L p.1 p.2 = some 'H' → rowMajorLE h p := by
  have hmem : h ∈ homes L := by
    cases hhl : homes L with
    | nil => rw [hhl] at hh; cases hh
    | cons a l => rw [hhl] at hh; cases hh; exact List.mem_cons_self _ _
  refine ⟨mem_scanFor.mp hmem, ?_⟩
  intro p hp
  exact scanRowsFor_head_min L 0 h hh p (mem_scanFor.mpr hp)

theorem reflTransGen_adjPass_passIB {L : List (List Char)} {s c : Coord}
    (hs : PassIB L s) (h : Relation.ReflTransGen (AdjPass L) s c) : PassIB L c := by
  induction h with
  | refl => exact hs
  | tail hab hbc ih => exact ⟨hbc.2.1, hbc.2.2⟩

theorem reflTransGen_adjPass_iff_connStep {L : List (List Char)} {s c : Coord}
    (hs : PassIB L s) :
    Relation.ReflTransGen (AdjPass L) s c ↔ Relation.ReflTransGen (ConnStep L) s c := by
  constructor
  · intro h
    induction h with
    | refl => exact Relation.ReflTransGen.refl
    | tail hab hbc ih =>
      exact ih.tail ⟨hbc.1, reflTransGen_adjPass_passIB hs hab, hbc.2.1, hbc.2.2⟩
  · intro h
    refine Relation.ReflTransGen.mono ?_ h
    intro a b hab
    exact ⟨hab.1, hab.2.2.1, hab.2.2.2⟩

theorem passIB_not_building {L : List (List Char)} {c : Coord} (h : PassIB L c) :
    inB (gridSize L) c.1 c.2 = true ∧ cellAt L c.1 c.2 ≠ some 'B' := by
  refine ⟨h.1, ?_⟩
  intro hB
  have h2 := h.2
  rw [passLabel, hB] at h2
  simp [isPassable] at h2

/-- C1: for every grid and every in-bounds passable start coordinate, the
visited set returned by the flood fill is exactly the reachability closure
of the start under 4-directional adjacency restricted to passable cells:
a cell is in the set iff it is linked to the start by a chain of passable
orthogonal neighbors. -/
theorem c1_floodFill_eq_reachability_closure (L : List (List Char)) (s : Coord)
    (hs : PassIB L s) :
    ∀ c, c ∈ floodFill L s ↔ Relation.ReflTransGen (ConnStep L) s c := by
  intro c
  rw [floodFill_spec, reflTransGen_adjPass_iff_connStep hs]

theorem c1_witness :
    ((2 : Int), (1 : Int)) ∈ floodFill g1 (0, 0) ↔
      Relation.ReflTransGen (ConnStep g1) (0, 0) (2, 1) :=
  c1_floodFill_eq_reachability_closure g1 (0, 0) (by decide) (2, 1)

/-- C2: for every grid and every Park-labeled cell, the classification is
"unreachable/isolated" iff the passable-neighbor count is exactly 0,
"dead end" iff it is exactly 1, and "accessible" iff it is at least 2. -/
theorem c2_classify_thresholds (L : List (List Char)) (x y : Int)
    (_hpark : cellAt L x y = some 'P') :
    (classify L x y = ParkStatus.unreachableIsolated ↔ passableCount L x y = 0) ∧
    (classify L x y = ParkStatus.deadEnd ↔ passableCount L x y = 1) ∧
    (classify L x y = ParkStatus.accessible ↔ 2 ≤ passableCount L x y) := by
  by_cases h0 : passableCount L x y = 0
  · simp [classify, h0]
  · by_cases h1 : passableCount L x y < 2
    · have he : passableCount L x y = 1 := by omega
      simp [classify, h0, h1, he]
    · have h2 : 2 ≤ passableCount L x y := by omega
      have hne : passableCount L x y ≠ 1 := by omega
      simp [classify, h0, h1, h2, hne]

theorem c2_witness : classify g1 2 1 = ParkStatus.deadEnd :=
  ((c2_classify_thresholds g1 2 1 (by decide)).2.1).mpr (by decide)

/-- C3: when the grid has a Home cell, the analysis reports from the
row-major-first Home, marks each Park reachable iff it is in the flood-fill
visited set, and passes overall iff the reachable-park count equals the
total park count. -/
theorem c3_first_home_report (L : List (List Char))
    (hhome : ∃ p : Coord, cellAt L p.1 p.2 = some 'H') :
    ∃ s r, connectivityAnalysis L = AnalysisOutcome.report r ∧
      r.start = s ∧
      cellAt L s.1 s.2 = some 'H' ∧
      (∀ p, cellAt L p.1 p.2 = some 'H' → rowMajorLE s p) ∧
      (∀ p, p ∈ parks L ↔ cellAt L p.1 p.2 = some 'P') ∧
      (∀ p ∈ parks L, ((p, true) ∈ r.parkResults ↔ p ∈ floodFill L s)) ∧
      r.reachableParks = ((parks L).countP fun p => decide (p ∈ floodFill L s)) ∧
      r.totalParks = (parks L).length ∧
      (r.allReachable = true ↔ r.reachableParks = r.totalParks) := by
  obtain ⟨p0, hp0⟩ := hhome
  have hp0m : p0 ∈ homes L := mem_scanFor.mpr hp0
  match hh : homes L with
  | [] => rw [hh] at hp0m; cases hp0m
  | s :: rest =>
    rw [hh] at hp0m
    have hhead : (homes L).head? = some s := by rw [hh]; rfl
    obtain ⟨hsH, hsmin⟩ := homes_head_min hhead
    refine ⟨s,
      { start := s
        parkResults := (parks L).map fun p => (p, decide (p ∈ floodFill L s))
        reachableParks := (parks L).countP fun p => decide (p ∈ floodFill L s)
        totalParks := (parks L).length
        allReachable :=
          ((parks L).countP fun p => decide (p ∈ floodFill L s)) == (parks L).length },
      ?_, rfl, hsH, hsmin, fun p => mem_scanFor, ?_, rfl, rfl, ?_⟩
    · unfold connectivityAnalysis
      rw [hh]
    · intro p hp
      constructor
      · intro hmem
        obtain ⟨q, hq, heq⟩ := List.mem_map.mp hmem
        rw [Prod.mk.injEq] at heq
        obtain ⟨rfl, h2⟩ := heq
        exact of_decide_eq_true h2
      · intro hv
        exact List.mem_map.mpr ⟨p, hp, by simp [hv]⟩
    · simp

theorem c3_witness :
    ∃ s r, connectivityAnalysis g1 = AnalysisOutcome.report r ∧ r.start = s ∧
      cellAt g1 s.1 s.2 = some 'H' := by
  obtain ⟨s, r, h1, h2, h3, -⟩ :=
    c3_first_home_report g1 ⟨((0 : Int), (0 : Int)), by decide⟩
  exact ⟨s, r, h1, h2, h3⟩

/-- C4: an out-of-bounds orthogonal neighbor is treated exactly as a
Building cell: the passable-neighbor count only ever counts in-bounds
neighbors (the out-of-bounds slots carry the label `'B'`, which is not
passable), and the flood fill never enters an out-of-bounds coordinate. -/
theorem c4_oob_as_building (L : List (List Char)) (x y : Int) :
    (passableCount L x y =
      ((dirs.filter fun dd => inB (gridSize L) (x + dd.1) (y + dd.2)).countP
        fun dd => isPassable ((cellAt L (x + dd.1) (y + dd.2)).getD '?'))) ∧
    isPassable 'B' = false ∧
    (∀ s c, c ∈ floodFill L s → c ≠ s → inB (gridSize L) c.1 c.2 = true) := by
  have hB : isPassable 'B' = false := by decide
  refine ⟨?_, hB, ?_⟩
  · rw [passableCount, neighborLabels]
    induction dirs with
    | nil => simp
    | cons dd ds ih =>
      by_cases hb : inB (gridSize L) (x + dd.1) (y + dd.2) = true
      · simp [List.countP_cons, List.filter_cons, hb, ih]
      · simp [List.countP_cons, List.filter_cons, hb, ih, hB]
  · intro s c hc hcs
    have hr := (floodFill_spec L s c).mp hc
    rcases Relation.ReflTransGen.cases_tail hr with rfl | ⟨b, _, hbc⟩
    · exact absurd rfl hcs
    · exact hbc.2.1

theorem c4_witness : inB (gridSize g1) (2 : Int) (1 : Int) = true :=
  (c4_oob_as_building g1 0 0).2.2 (0, 0) (2, 1) (by decide) (by decide)

/-- C5: for an in-bounds passable start, the visited set contains no
Building cell and no out-of-bounds coordinate, both at every step of the
traversal (any state reachable by loop iterations from the initial state)
and in the final flood-fill result. -/
theorem c5_visited_soundness (L : List (List Char)) (s : Coord) (hs : PassIB L s) :
    (∀ st : FFState, Relation.ReflTransGen (FFStep L) ([s], ∅) st →
      ∀ c ∈ st.2, inB (gridSize L) c.1 c.2 = true ∧ cellAt L c.1 c.2 ≠ some 'B') ∧
    (∀ c ∈ floodFill L s, inB (gridSize L) c.1 c.2 = true ∧ cellAt L c.1 c.2 ≠ some 'B') := by
  constructor
  · intro st hst c hc
    have hr := (ffSteps_reachable L s st hst).2 c hc
    exact passIB_not_building (reflTransGen_adjPass_passIB hs hr)
  · intro c hc
    have hr := (floodFill_spec L s c).mp hc
    exact passIB_not_building (reflTransGen_adjPass_passIB hs hr)

theorem c5_witness :
    inB (gridSize g1) (2 : Int) (2 : Int) = true ∧ cellAt g1 2 2 ≠ some 'B' :=
  (c5_visited_soundness g1 (0, 0) (by decide)).2 (2, 2) (by decide)

/-- C6: with no Home cell in the grid, the connectivity analysis takes the
distinct no-start-point branch (no flood fill, no park report, no fail
verdict). -/
theorem c6_no_start_point (L : List (List Char)) (h : homes L = []) :
    (¬ ∃ p : Coord, cellAt L p.1 p.2 = some 'H') ∧
    connectivityAnalysis L = AnalysisOutcome.noStartPoint ∧
    ∀ r : ReachReport, connectivityAnalysis L ≠ AnalysisOutcome.report r := by
  have h2 : connectivityAnalysis L = AnalysisOutcome.noStartPoint := by
    unfold connectivityAnalysis
    rw [h]
  refine ⟨?_, h2, ?_⟩
  · rintro ⟨p, hp⟩
    have hmem : p ∈ homes L := mem_scanFor.mpr hp
    rw [h] at hmem
    cases hmem
  · intro r hr
    rw [h2] at hr
    cases hr

theorem c6_witness : connectivityAnalysis g6 = AnalysisOutcome.noStartPoint :=
  (c6_no_start_point g6 (by decide)).2.1

/-- C7 counterexample: `g7` is malformed in the spec's sense (it contains
the unknown label `'X'`), yet the analyzer does not stop with any error:
it runs the full classification and flood-fill pipeline and produces an
ordinary report, refuting the claim that malformed input is rejected
before any computation proceeds. -/
theorem c7_counterexample :
    InvalidGrid g7 ∧
      connectivityAnalysis g7 = AnalysisOutcome.report
        { start := (0, 0), parkResults := [((1, 1), true)], reachableParks := 1,
          totalParks := 1, allReachable := true } := by
  constructor
  · exact Or.inr (Or.inr ⟨['H', 'X'], by decide, 'X', by decide, by decide⟩)
  · decide

/-- C7 amended: the analyzer performs no input validation and raises no
error on malformed grids; a cell label outside the enumeration is merely
not passable, and the analysis proceeds normally (on `g7`, a square grid
with the unknown label `'X'`, a full report is produced). -/
theorem c7_no_validation :
    (∀ c : Char, c ∉ legalLabels → isPassable c = false) ∧
    connectivityAnalysis g7 = AnalysisOutcome.report
      { start := (0, 0), parkResults := [((1, 1), true)], reachableParks := 1,
        totalParks := 1, allReachable := true } := by
  constructor
  · intro c hc
    by_contra h
    have h' : isPassable c = true := by
      revert h
      cases isPassable c <;> simp
    rw [isPassable] at h'
    simp only [Bool.or_eq_true, beq_iff_eq] at h'
    rcases h' with ((rfl | rfl) | rfl) | rfl <;> simp [legalLabels] at hc
  · decide

theorem c7_witness : isPassable 'X' = false :=
  c7_no_validation.1 'X' (by decide)

/-- C8: for every grid and start coordinate, the breadth-first (FIFO
frontier, as the script implements it) and depth-first (LIFO frontier)
traversals produce the same visited set. -/
theorem c8_bfs_eq_dfs (L : List (List Char)) (s : Coord) :
    floodFill L s = floodFillD L s :=
  Finset.ext fun c => (floodFill_spec L s c).trans (floodFillD_spec L s c).symm

/-- C9: for every grid and start coordinate the flood-fill loop terminates:
no infinite chain of loop iterations exists from the initial state (or any
state), and from every state with a nonempty frontier the loop can take a
step, so every maximal run ends with an empty frontier. -/
theorem c9_loop_terminates (L : List (List Char)) (s : Coord) :
    Acc (fun t u : FFState => FFStep L u t) ([s], ∅) ∧
    ∀ st : FFState, st.1 ≠ [] → ∃ t, FFStep L st t := by
  constructor
  · exact (ffStep_wf L).apply _
  · rintro ⟨queue, visited⟩ hne
    match queue with
    | [] => exact absurd rfl hne
    | c :: rest =>
      by_cases hc : c ∈ visited
      · exact ⟨_, FFStep.skip c rest visited hc⟩
      · exact ⟨_, FFStep.visit c rest visited hc⟩

theorem c9_witness : ∃ t, FFStep g1 ([((0 : Int), (0 : Int))], ∅) t :=
  (c9_loop_terminates g1 (0, 0)).2 ([(0, 0)], ∅) (by simp)

/-- C10: the flood-fill visited set always contains the start coordinate,
whatever its label: the start is enqueued and marked visited without any
passability check on its own cell. -/
theorem c10_start_always_visited (L : List (List Char)) (s : Coord) :
    s ∈ floodFill L s :=
  (floodFill_spec L s s).mpr Relation.ReflTransGen.refl

end HardExpedition
